import Mathlib

/-!
Verification development for the tinyagent orchestration engine
(`src/tinyagent/core.py` and `src/tinyagent/telemetry.py`).

The expression DSL works on token lists produced by the regular expression
`(\(|\)|>>|&|\?|\||<\d+>|\w+)`.  Tokens, the lexer, the operator scan of
`Flow._eval_infix`, the two evaluators (`Flow._eval_infix` and
`TracingFlow._eval_traced`), the node execution envelope (`Node.execute`),
the registry (`Node.__init__`), and the operator-overload string builders
(`Node.__rshift__` … and `Expr`) are embedded below.  Real time (durations
in trace labels) and the cooperative scheduler are abstracted away: node
behaviour is a boolean function of the invocation count, `asyncio.gather`
for `&` in `TracingFlow` is modelled as left-then-right effect sequencing
(the claims about `&` concern invocation and the boolean result, not
interleaving), and trace entries record node names and statuses without
wall-clock durations.
-/

namespace TinyAgent

/-- Tokens emitted by the lexer regex in `core.py` line 82:
parentheses, the four binary operators, loop markers `<N>`, and barewords. -/
inductive Tok
  | lpar
  | rpar
  | seq
  | amp
  | qmark
  | orr
  | loop (n : Nat)
  | name (s : String)
  deriving DecidableEq, Repr

/-- The string a token stands for (the text matched by the regex). -/
def tokStr : Tok → String
  | .lpar => "("
  | .rpar => ")"
  | .seq => ">>"
  | .amp => "&"
  | .qmark => "?"
  | .orr => "|"
  | .loop n => "<" ++ toString n ++ ">"
  | .name s => s

/-- ASCII reading of the regex class `\w`. -/
def isWordChar (c : Char) : Bool := c.isAlphanum || c = '_'

/-- Numeric value of a digit run, as `int` applied to the digits of `<N>`. -/
def digitsVal (ds : List Char) : Nat := ds.foldl (fun a c => a * 10 + (c.toNat - 48)) 0

/-- Fuelled scanner for `re.findall(r"(\(|\)|>>|&|\?|\||<\d+>|\w+)", s)`
(`Flow._RE`, core.py line 82): at each position the alternatives are tried
in order, a position matching none is skipped, `\d+` and `\w+` take maximal
runs.  Fuel is the number of characters still to scan. -/
def lexFuel : Nat → List Char → List Tok
  | 0, _ => []
  | _, [] => []
  | fuel+1, c :: rest =>
    if c = '(' then .lpar :: lexFuel fuel rest
    else if c = ')' then .rpar :: lexFuel fuel rest
    else if c = '&' then .amp :: lexFuel fuel rest
    else if c = '?' then .qmark :: lexFuel fuel rest
    else if c = '|' then .orr :: lexFuel fuel rest
    else if c = '>' then
      match rest with
      | '>' :: rest' => .seq :: lexFuel fuel rest'
      | _ => lexFuel fuel rest
    else if c = '<' then
      match rest.dropWhile Char.isDigit with
      | '>' :: rest' =>
        if (rest.takeWhile Char.isDigit).isEmpty then lexFuel fuel rest
        else .loop (digitsVal (rest.takeWhile Char.isDigit)) :: lexFuel fuel rest'
      | _ => lexFuel fuel rest
    else if isWordChar c then
      .name (String.mk (c :: rest.takeWhile isWordChar)) :: lexFuel fuel (rest.dropWhile isWordChar)
    else lexFuel fuel rest

/-- Tokenisation of an expression string (`Flow.run` line 85). -/
def lexStr (s : String) : List Tok := lexFuel s.toList.length s.toList

/-- The whitespace-stripped input, the reference against which the spec's
lexer section compares the concatenation of the emitted tokens. -/
def stripWs (s : String) : String := String.mk (s.toList.filter (fun c => !c.isWhitespace))

/-- Concatenation of the emitted tokens' texts. -/
def joinToks (ts : List Tok) : String := String.join (ts.map tokStr)

/-- Operator precedence of a token per `Flow._P` (core.py line 82) combined
with the loop-marker test `startswith("<")` in the scan (line 103-104):
`>>` is 1, `|` and `?` are 2, `&` is 3, every `<N>` is 4; other tokens are
not operators. -/
def precC : Tok → Option Nat
  | .seq => some 1
  | .orr => some 2
  | .qmark => some 2
  | .amp => some 3
  | .loop _ => some 4
  | _ => none

/-- The operator scan of `Flow._eval_infix` lines 99-106: walk the slice
tracking parenthesis depth, and on every depth-zero operator whose
precedence is at most the minimum seen so far, record its position (so ties
go to the rightmost occurrence).  Arguments: remaining tokens, index of the
next token, current minimum precedence (initially 999), best position so
far (initially none, Python's -1), current depth. -/
def findOpAux : List Tok → Nat → Nat → Option Nat → Int → Option Nat
  | [], _, _, best, _ => best
  | t :: rest, i, minP, best, d =>
    match t with
    | .lpar => findOpAux rest (i+1) minP best (d+1)
    | .rpar => findOpAux rest (i+1) minP best (d-1)
    | _ =>
      match precC t with
      | some p =>
        if d = 0 ∧ p ≤ minP then findOpAux rest (i+1) p (some i) d
        else findOpAux rest (i+1) minP best d
      | none => findOpAux rest (i+1) minP best d

/-- Position of the rightmost lowest-precedence top-level operator of a
token slice (`-1` in the source is `none` here). -/
def findOp (ts : List Tok) : Option Nat := findOpAux ts 0 999 none 0

/-- Abstract environment for the evaluators: the set of registered node
names (`Node._registry`) and, for each name, the boolean outcome of its
k-th invocation.  A node's `execute` envelope always returns a boolean (see
`execute` below), which this behaviour function abstracts. -/
structure EvalEnv where
  registered : List String
  beh : String → Nat → Bool

/-- Single-node invocation as seen by the evaluators (core.py line 96 and
telemetry.py lines 51-55): a registered name runs and appends its name to
the invocation trace, an unregistered one yields `False` untouched. -/
def execNode (env : EvalEnv) (σ : List String) (nm : String) : Bool × List String :=
  if nm ∈ env.registered then (env.beh nm (σ.count nm), σ ++ [nm]) else (false, σ)

/-- The `<N>` loop body of `Flow._eval_infix` (core.py lines 115-119):
each iteration evaluates the left side, breaks if it is false, evaluates
the right side, breaks if it is true.  Only the trace comes out; the
enclosing evaluator returns `true` unconditionally (line 120). -/
def loopCore (f g : List String → Bool × List String) : Nat → List String → List String
  | 0, σ => σ
  | m+1, σ =>
    let p := f σ
    if p.1 then
      let q := g p.2
      if q.1 then q.2 else loopCore f g m q.2
    else p.2

/-- The `<N>` loop body of `TracingFlow._eval_traced` (telemetry.py lines
73-79): each iteration evaluates the left side (result ignored) then the
right side, remembers the right result, and breaks when it is true; the
value is the last right result (`false` when `N = 0`). -/
def loopTrace (f g : List String → Bool × List String) : Nat → Bool → List String → Bool × List String
  | 0, last, σ => (last, σ)
  | m+1, _, σ =>
    let p := f σ
    let q := g p.2
    if q.1 then q else loopTrace f g m q.1 q.2

/-- Evaluator of `Flow._eval_infix` (core.py lines 88-128) over a token
slice, threading the invocation trace.  Fuel bounds the recursion; every
recursive call is on a strictly shorter slice, so fuel equal to the slice
length (see `flowEval`) never runs out.  Dispatch mirrors the source:
empty slice is `False`; a single token is a registry lookup; otherwise the
rightmost lowest-precedence top-level operator splits the slice (no
operator means the slice is parenthesised); the loop runs its body and
returns `True`; for the binary operators the left side runs first, then
`>>` returns the right result ignoring the left, `&` is Python's
`left and eval(right)`, `?` is `eval(right) if left else False`,
`|` is `left or eval(right)`. -/
def evalFlowF (env : EvalEnv) : Nat → List Tok → List String → Bool × List String
  | 0, _, σ => (false, σ)
  | fuel+1, ts, σ =>
    if ts.length = 0 then (false, σ)
    else if ts.length = 1 then execNode env σ (tokStr (ts.getD 0 .lpar))
    else
      match findOp ts with
      | none => evalFlowF env fuel ((ts.drop 1).dropLast) σ
      | some i =>
        match ts.getD i .lpar with
        | .loop n => (true, loopCore (evalFlowF env fuel (ts.take i)) (evalFlowF env fuel (ts.drop (i+1))) n σ)
        | .seq =>
          let p := evalFlowF env fuel (ts.take i) σ
          evalFlowF env fuel (ts.drop (i+1)) p.2
        | .amp =>
          let p := evalFlowF env fuel (ts.take i) σ
          if p.1 then evalFlowF env fuel (ts.drop (i+1)) p.2 else (false, p.2)
        | .qmark =>
          let p := evalFlowF env fuel (ts.take i) σ
          if p.1 then evalFlowF env fuel (ts.drop (i+1)) p.2 else (false, p.2)
        | .orr =>
          let p := evalFlowF env fuel (ts.take i) σ
          if p.1 then p else evalFlowF env fuel (ts.drop (i+1)) p.2
        | _ =>
          let p := evalFlowF env fuel (ts.take i) σ
          (false, p.2)

/-- Evaluator of `TracingFlow._eval_traced` (telemetry.py lines 45-94).
Same slicing as `evalFlowF`; the differences are the loop (returns the last
right result), `&` (both sides always run via `asyncio.gather`, modelled as
left-then-right sequencing, result is the conjunction), and `|` (returns
`left_result` itself when it is true). -/
def evalTraceF (env : EvalEnv) : Nat → List Tok → List String → Bool × List String
  | 0, _, σ => (false, σ)
  | fuel+1, ts, σ =>
    if ts.length = 0 then (false, σ)
    else if ts.length = 1 then execNode env σ (tokStr (ts.getD 0 .lpar))
    else
      match findOp ts with
      | none => evalTraceF env fuel ((ts.drop 1).dropLast) σ
      | some i =>
        match ts.getD i .lpar with
        | .loop n => loopTrace (evalTraceF env fuel (ts.take i)) (evalTraceF env fuel (ts.drop (i+1))) n false σ
        | .amp =>
          let p := evalTraceF env fuel (ts.take i) σ
          let q := evalTraceF env fuel (ts.drop (i+1)) p.2
          (p.1 && q.1, q.2)
        | .seq =>
          let p := evalTraceF env fuel (ts.take i) σ
          evalTraceF env fuel (ts.drop (i+1)) p.2
        | .qmark =>
          let p := evalTraceF env fuel (ts.take i) σ
          if p.1 then evalTraceF env fuel (ts.drop (i+1)) p.2 else (false, p.2)
        | .orr =>
          let p := evalTraceF env fuel (ts.take i) σ
          if p.1 then p else evalTraceF env fuel (ts.drop (i+1)) p.2
        | _ =>
          let p := evalTraceF env fuel (ts.take i) σ
          (false, p.2)

/-- Evaluation of a token list by `Flow._eval_infix`, started as `Flow.run`
does on the whole vector. -/
def flowEval (env : EvalEnv) (ts : List Tok) (σ : List String) : Bool × List String :=
  evalFlowF env ts.length ts σ

/-- Evaluation of a token list by `TracingFlow._eval_traced`. -/
def traceEval (env : EvalEnv) (ts : List Tok) (σ : List String) : Bool × List String :=
  evalTraceF env ts.length ts σ

/-- `Flow.run` (core.py lines 84-86): tokenize with the regex and evaluate.
No validation of any kind happens on this path. -/
def flowRunStr (env : EvalEnv) (s : String) : Bool × List String :=
  flowEval env (lexStr s) []

/-- Environment with nodes `A` and `B` where `A` always yields `false` and
`B` always yields `true`. -/
def envAB : EvalEnv := ⟨["A", "B"], fun nm _ => nm == "B"⟩

/-- Environment with nodes `A` and `B` where `A` always yields `true` and
`B` always yields `false`. -/
def envTA : EvalEnv := ⟨["A", "B"], fun nm _ => nm == "A"⟩

/-- Environment with only node `A`, always succeeding. -/
def envA : EvalEnv := ⟨["A"], fun _ _ => true⟩

/-- Outcome of one attempt of a node's user function inside `Node.execute`
(core.py lines 38-46): a normal return already coerced to `bool`, an
`asyncio.TimeoutError`, any other `Exception` with the name of its class,
or a `BaseException`-level interrupt (`KeyboardInterrupt`,
`asyncio.CancelledError`), which the source does not catch. -/
inductive Attempt
  | ok (b : Bool)
  | timeout
  | err (kind : String)
  | interrupt
  deriving DecidableEq, Repr

/-- Status recorded in the trace entry of one attempt: `name:OK:…`,
`name:TIMEOUT:…` or `name:ERR(kind):…` (durations are real time and are not
modelled). -/
inductive TStatus
  | okS
  | timeoutS
  | errS (kind : String)
  deriving DecidableEq, Repr

/-- Trace status of a failed attempt. -/
def failStatus : Attempt → TStatus
  | .timeout => .timeoutS
  | .err kind => .errS kind
  | _ => .okS

/-- Whether an attempt outcome is a caught failure (timeout or exception). -/
def attFails : Attempt → Bool
  | .timeout => true
  | .err _ => true
  | _ => false

/-- The retry loop of `Node.execute` (core.py lines 39-46) and of
`TracingFlow._execute_traced` (telemetry.py lines 100-113): `budget`
attempts remain, `k` attempts have already been made, `att` gives the
outcome of each attempt of the user function.  A normal return appends an
OK entry and stops with the boolean; a timeout or exception appends its
entry and moves to the next attempt; an exhausted budget returns `False`;
an interrupt is not caught and propagates (`Except.error`). -/
def executeGo (nm : String) (att : Nat → Attempt) : Nat → Nat → Except Unit (Bool × List (String × TStatus))
  | _, 0 => .ok (false, [])
  | k, budget+1 =>
    match att k with
    | .ok b => .ok (b, [(nm, .okS)])
    | .timeout => (executeGo nm att (k+1) budget).map (fun p => (p.1, (nm, .timeoutS) :: p.2))
    | .err kind => (executeGo nm att (k+1) budget).map (fun p => (p.1, (nm, .errS kind) :: p.2))
    | .interrupt => .error ()

/-- `Node.execute` with `retries = r`: the loop `for _ in range(r + 1)`. -/
def execute (nm : String) (att : Nat → Attempt) (r : Nat) : Except Unit (Bool × List (String × TStatus)) :=
  executeGo nm att 0 (r + 1)

/-- Attempt behaviour used as a concrete input: one timeout, then success. -/
def attW : Nat → Attempt := fun k => if k = 0 then .timeout else .ok true

/-- Attempt behaviour that raises `ValueError` on every attempt. -/
def attE : Nat → Attempt := fun _ => .err "ValueError"

/-- Configuration data passed to `Node.__init__` (core.py line 34): the
timeout (possibly absent, possibly non-positive), the retries value
(possibly negative), and whether `fn` is an asynchronous function.  The
constructor stores these without examining them. -/
structure NodeCfg where
  timeout : Option Int
  retries : Int
  fnAsync : Bool
  deriving DecidableEq, Repr

/-- The registry update performed by `Node.__init__` (core.py line 36):
`Node._registry[name] = self`, an unconditional insertion. -/
def registerNode (reg : String → Option NodeCfg) (nm : String) (cfg : NodeCfg) : String → Option NodeCfg :=
  fun k => if k = nm then some cfg else reg k

/-- The empty registry. -/
def emptyReg : String → Option NodeCfg := fun _ => none

/-- A configuration that is invalid on every count the spec lists:
non-positive timeout, negative retries, non-asynchronous `fn`. -/
def badCfg : NodeCfg := ⟨some (-1), -1, false⟩

/-- `Node.__rshift__` (core.py lines 48-50): builds the string
`f"{self.name} >> {other_name}"`. -/
def nodeRshiftStr (selfName other : String) : String := selfName ++ " >> " ++ other

/-- `Node.__and__` (core.py lines 52-54). -/
def nodeAndStr (selfName other : String) : String := selfName ++ " & " ++ other

/-- `Node.__or__` (core.py lines 56-58). -/
def nodeOrStr (selfName other : String) : String := selfName ++ " | " ++ other

/-- `Node.__xor__` (core.py lines 60-62): the Python `^` operator spells
the DSL's `?`. -/
def nodeXorStr (selfName other : String) : String := selfName ++ " ? " ++ other

/-- `Expr.__rshift__` (core.py line 73): parenthesises the accumulated
expression, `f"({self._expr}) >> {other}"`. -/
def exprRshiftStr (selfExpr other : String) : String := "(" ++ selfExpr ++ ") >> " ++ other

/-- `Expr.__and__` (core.py line 74). -/
def exprAndStr (selfExpr other : String) : String := "(" ++ selfExpr ++ ") & " ++ other

/-- `Expr.__or__` (core.py line 75). -/
def exprOrStr (selfExpr other : String) : String := "(" ++ selfExpr ++ ") | " ++ other

/-- `Expr.__xor__` (core.py line 76). -/
def exprXorStr (selfExpr other : String) : String := "(" ++ selfExpr ++ ") ? " ++ other

/-- `Expr.loop` (core.py line 77): `f"({self._expr}) <{n}> {other}"`. -/
def exprLoopStr (selfExpr : String) (n : Nat) (other : String) : String :=
  "(" ++ selfExpr ++ ") <" ++ toString n ++ "> " ++ other

/-- Parse trees of the DSL: one node per operator, leaves are node names. -/
inductive PTree
  | leaf (s : String)
  | seqT (l r : PTree)
  | orT (l r : PTree)
  | condT (l r : PTree)
  | andT (l r : PTree)
  | loopT (n : Nat) (l r : PTree)
  deriving DecidableEq, Repr

/-- Tree node built from an operator token (other tokens never occur at an
operator position). -/
def mkNode : Tok → PTree → PTree → PTree
  | .seq, l, r => .seqT l r
  | .orr, l, r => .orT l r
  | .qmark, l, r => .condT l r
  | .amp, l, r => .andT l r
  | .loop n, l, r => .loopT n l r
  | _, l, _ => l

/-- The parse tree implied by the recursion structure of
`Flow._eval_infix`: same slicing as `evalFlowF` — a single token is a
leaf, otherwise the slice splits at the rightmost lowest-precedence
top-level operator (none meaning the slice is parenthesised) — but
building the tree instead of running nodes. -/
def splitParse : Nat → List Tok → Option PTree
  | 0, _ => none
  | fuel+1, ts =>
    if ts.length = 0 then none
    else if ts.length = 1 then
      match ts.getD 0 .lpar with
      | .name s => some (.leaf s)
      | _ => none
    else
      match findOp ts with
      | none => splitParse fuel ((ts.drop 1).dropLast)
      | some i =>
        match splitParse fuel (ts.take i), splitParse fuel (ts.drop (i+1)) with
        | some l, some r =>
          match ts.getD i .lpar with
          | .lpar => none
          | .rpar => none
          | .name _ => none
          | o => some (mkNode o l r)
        | _, _ => none

/-- Split parse of a whole token vector. -/
def parseTokens (ts : List Tok) : Option PTree := splitParse ts.length ts

/-- The grammar side condition on loop markers: `INT := [1-9][0-9]*`, so a
loop count is positive; trivial for every other token. -/
def loopPos : Tok → Prop
  | .loop n => 1 ≤ n
  | _ => True

/-- Operator tokens of the DSL. -/
def isOpTok : Tok → Bool
  | .seq => true
  | .orr => true
  | .qmark => true
  | .amp => true
  | .loop _ => true
  | _ => false

/-- Grammar level of each operator in the EBNF of spec section 6, where
`|` (orc) and `?` (cond) sit on separate tiers: `>>` 1, `|` 2, `?` 3,
`&` 4, `<N>` 5. -/
def rankO : Tok → Option Nat
  | .seq => some 1
  | .orr => some 2
  | .qmark => some 3
  | .amp => some 4
  | .loop _ => some 5
  | _ => none

/-- The EBNF of spec section 6, written levelwise with level `k`:
1 = expr/seq, 2 = orc, 3 = cond, 4 = par, 5 = loop, 6 = atom.
`DerivesO k ts t` says the token list `ts` derives from the level-`k`
nonterminal with parse tree `t`: the left-recursive `oapp` rule is
`level_k := level_k OP_k level_(k+1)`, giving left associativity;
`opromo` passes to the next tighter tier; atoms are names or parenthesised
expressions.  This is the specification side of the parse-tree claim. -/
inductive DerivesO : Nat → List Tok → PTree → Prop
  | oname (s : String) : DerivesO 6 [.name s] (.leaf s)
  | oparen {ts t} : DerivesO 1 ts t → DerivesO 6 (.lpar :: ts ++ [.rpar]) t
  | opromo {k ts t} : k ≤ 5 → DerivesO (k+1) ts t → DerivesO k ts t
  | oapp {k o l r t1 t2} : rankO o = some k → loopPos o →
      DerivesO k l t1 → DerivesO (k+1) r t2 → DerivesO k (l ++ o :: r) (mkNode o t1 t2)

/-- The same grammar with `|` and `?` merged into a single tier, so the
levels coincide with the implementation's precedences `precC`:
1 = seq, 2 = orc/cond merged, 3 = par, 4 = loop, 5 = atom. -/
inductive DerivesM : Nat → List Tok → PTree → Prop
  | mname (s : String) : DerivesM 5 [.name s] (.leaf s)
  | mparen {ts t} : DerivesM 1 ts t → DerivesM 5 (.lpar :: ts ++ [.rpar]) t
  | mpromo {k ts t} : k ≤ 4 → DerivesM (k+1) ts t → DerivesM k ts t
  | mapp {k o l r t1 t2} : precC o = some k → loopPos o →
      DerivesM k l t1 → DerivesM (k+1) r t2 → DerivesM k (l ++ o :: r) (mkNode o t1 t2)

/-- Depth contribution of one token. -/
def tokD : Tok → Int
  | .lpar => 1
  | .rpar => -1
  | _ => 0

/-- Net parenthesis depth change over a slice. -/
def netD (ts : List Tok) : Int := (ts.map tokD).sum

/-- Running parenthesis depth: `runDepth ts d` walks the slice from depth
`d` and returns the final depth, or `none` if the depth ever drops below
zero. -/
def runDepth : List Tok → Nat → Option Nat
  | [], d => some d
  | t :: rest, d =>
    match t with
    | .lpar => runDepth rest (d+1)
    | .rpar =>
      match d with
      | 0 => none
      | d'+1 => runDepth rest d'
    | _ => runDepth rest d

/-- Indexed positions and precedences of the depth-zero operators of a
slice, in scan order: `i` is the index of the first token, `d` the current
depth. -/
def topOpsAux : List Tok → Nat → Int → List (Nat × Nat)
  | [], _, _ => []
  | t :: rest, i, d =>
    match t with
    | .lpar => topOpsAux rest (i+1) (d+1)
    | .rpar => topOpsAux rest (i+1) (d-1)
    | _ =>
      match precC t with
      | some p =>
        if d = 0 then (i, p) :: topOpsAux rest (i+1) d else topOpsAux rest (i+1) d
      | none => topOpsAux rest (i+1) d

/-- One step of the minimum-precedence fold: replace the best position on a
precedence at most the current minimum (ties therefore fall to the
rightmost occurrence, as in the source). -/
def updMin (acc : Nat × Option Nat) (e : Nat × Nat) : Nat × Option Nat :=
  if e.2 ≤ acc.1 then (e.2, some e.1) else acc

/-- Modelled from the spec: the validator step of `Flow._validate`, which
`TracingFlow.run` calls (telemetry.py line 39) together with the cache
`Flow._cache` (line 37) but which is absent from the source under `src/`.
Spec section 4.2: a single forward pass holding a grouping depth and an
expecting-operand flag; `none` is the rejected state.  Expecting an
operand: `(` deepens, a bareword must be registered, everything else
rejects.  Expecting an operator: `)` closes (rejecting below depth zero),
the binary operators and loop markers with a positive count flip the flag,
everything else rejects. -/
def vstep (reg : List String) : Option (Nat × Bool) → Tok → Option (Nat × Bool)
  | none, _ => none
  | some (d, true), t =>
    match t with
    | .lpar => some (d+1, true)
    | .name s => if s ∈ reg then some (d, false) else none
    | _ => none
  | some (d, false), t =>
    match t with
    | .rpar =>
      match d with
      | 0 => none
      | d'+1 => some (d', false)
    | .seq => some (d, true)
    | .orr => some (d, true)
    | .qmark => some (d, true)
    | .amp => some (d, true)
    | .loop n => if 1 ≤ n then some (d, true) else none
    | _ => none

/-- Modelled from the spec: validator acceptance — after the forward pass
the depth is zero and an operand is no longer expected. -/
def validateOk (reg : List String) (ts : List Tok) : Prop :=
  ts.foldl (vstep reg) (some (0, true)) = some (0, false)

instance validateOkDec (reg : List String) (ts : List Tok) : Decidable (validateOk reg ts) :=
  inferInstanceAs (Decidable (_ = _))

/-- `TracingFlow.run` (telemetry.py lines 33-43): the token vector is
validated (by the modelled `_validate`) before any evaluation; a failed
validation raises, so the error branch contains no evaluation and no node
is invoked on it. -/
def tracingRun (env : EvalEnv) (ts : List Tok) (σ : List String) : Except Unit (Bool × List String) :=
  if validateOk env.registered ts then .ok (traceEval env ts σ) else .error ()

/-- Accepting runs of the modelled validator: `VAcc reg d b ts` holds
exactly when the forward pass started in state `(d, b)` consumes `ts` and
ends in the accepting state `(0, false)`. -/
inductive VAcc (reg : List String) : Nat → Bool → List Tok → Prop
  | vdone : VAcc reg 0 false []
  | vname {s d ts} : s ∈ reg → VAcc reg d false ts → VAcc reg d true (.name s :: ts)
  | vpar {d ts} : VAcc reg (d+1) true ts → VAcc reg d true (.lpar :: ts)
  | vseq {d ts} : VAcc reg d true ts → VAcc reg d false (.seq :: ts)
  | vorr {d ts} : VAcc reg d true ts → VAcc reg d false (.orr :: ts)
  | vqmark {d ts} : VAcc reg d true ts → VAcc reg d false (.qmark :: ts)
  | vamp {d ts} : VAcc reg d true ts → VAcc reg d false (.amp :: ts)
  | vloop {n d ts} : 1 ≤ n → VAcc reg d true ts → VAcc reg d false (.loop n :: ts)
  | vclose {d ts} : VAcc reg d false ts → VAcc reg (d+1) false (.rpar :: ts)

/-- Flattened shape of a validated expression: `FlatG true a` says `a` is
a single atom (a name, or a parenthesised expression made of an atom and an
extension), `FlatG false e` says `e` is an extension — a possibly empty
run of operator-atom pairs. -/
inductive FlatG : Bool → List Tok → Prop
  | fname (s : String) : FlatG true [.name s]
  | fparen {a ext} : FlatG true a → FlatG false ext → FlatG true (.lpar :: (a ++ ext) ++ [.rpar])
  | fnil : FlatG false []
  | fcons {o a ext} : isOpTok o = true → loopPos o → FlatG true a → FlatG false ext →
      FlatG false (o :: a ++ ext)

/-- What a suffix must look like to close `d` open parentheses: each
closing parenthesis may be followed by an extension of the enclosing
expression, then the rest of the closing. -/
inductive CloseTail : Nat → List Tok → Prop
  | cdone : CloseTail 0 []
  | cstep {d ext rest} : FlatG false ext → CloseTail d rest →
      CloseTail (d+1) (.rpar :: ext ++ rest)

/-- Concatenation of a list of operator-atom groups. -/
def flatOf (gs : List (Tok × List Tok)) : List Tok :=
  gs.foldr (fun g acc => g.1 :: (g.2 ++ acc)) []

/-- The registry-free environment used in the validation witness. -/
def envNone : EvalEnv := ⟨[], fun _ _ => true⟩

/-- The token list `a | b ? c`, on which the original two-tier EBNF and
the implementation's split disagree. -/
def ex8 : List Tok := [.name "a", .orr, .name "b", .qmark, .name "c"]

/-- The tree the spec's EBNF prescribes for `a | b ? c`: `?` binds tighter
than `|` there, giving `a | (b ? c)`. -/
def ex8treeO : PTree := .orT (.leaf "a") (.condT (.leaf "b") (.leaf "c"))

/-- The tree the implementation's split produces for `a | b ? c`: `|` and
`?` share precedence 2 and the rightmost occurrence wins, giving
`(a | b) ? c`. -/
def ex8treeS : PTree := .condT (.orT (.leaf "a") (.leaf "b")) (.leaf "c")

end TinyAgent

namespace TinyAgent

/-- C1: the claim says `A & B` invokes both `A` and `B` and in particular
invokes `B` even when `A` returns false.  At the failing input — nodes `A`
(always false) and `B` (always true), expression `A & B` — the plain
`Flow._eval_infix` (which runs `left_result and await eval(right)`, a
Python short-circuit with no `gather`) never invokes `B` and stops with
`(false, ["A"])`, while `TracingFlow._eval_traced` does invoke both via
`asyncio.gather` and returns the conjunction. -/
theorem c1_parallel_failing_input :
    flowEval envAB [.name "A", .amp, .name "B"] [] = (false, ["A"]) ∧
    traceEval envAB [.name "A", .amp, .name "B"] [] = (false, ["A", "B"]) := by
  decide

/-- C2 counterexample: with `A` always false and `B` always true, both
evaluators run `B` inside `A >> B` and return `B`'s result `true` — the
claim predicted result `false` with `B` never invoked. -/
theorem c2_counterexample :
    flowEval envAB [.name "A", .seq, .name "B"] [] = (true, ["A", "B"]) ∧
    traceEval envAB [.name "A", .seq, .name "B"] [] = (true, ["A", "B"]) := by
  decide

/-- C2 (amended): in both `Flow._eval_infix` and `TracingFlow._eval_traced`
the expression `A >> B` evaluates `A`, discards its result, then always
evaluates `B` and returns `B`'s result — `B` is invoked even when `A`
yields false. -/
theorem c2_sequence_no_shortcircuit (env : EvalEnv) (a b : String) (σ : List String) :
    flowEval env [.name a, .seq, .name b] σ = execNode env (execNode env σ a).2 b ∧
    traceEval env [.name a, .seq, .name b] σ = execNode env (execNode env σ a).2 b :=
  ⟨rfl, rfl⟩

/-- C3: the claim says each iteration of `L <N> R` evaluates `L` then `R`
regardless of `L`'s outcome and that the overall value is `R`'s value on
the final iteration.  At the failing input `A <1> B` with `A` true and `B`
false, `Flow._eval_infix` returns `true` unconditionally where the claim
requires `false`, and with `A` always false (`A <2> B`) it never invokes
`B` at all; `TracingFlow._eval_traced` behaves exactly as the claim
states. -/
theorem c3_loop_failing_input :
    flowEval envTA [.name "A", .loop 1, .name "B"] [] = (true, ["A", "B"]) ∧
    traceEval envTA [.name "A", .loop 1, .name "B"] [] = (false, ["A", "B"]) ∧
    flowEval envAB [.name "A", .loop 2, .name "B"] [] = (true, ["A"]) := by
  decide

/-- C4 counterexample: the expression `A >> A` (node `A` registered, always
succeeding) runs to completion and invokes `A` twice — no `CycleDetected`
error exists anywhere in the evaluator, contradicting the claim that the
second invocation is prevented. -/
theorem c4_counterexample :
    flowEval envA [.name "A", .seq, .name "A"] [] = (true, ["A", "A"]) := by
  decide

/-- C4 (amended): `Flow._eval_infix` maintains no sequential path and
performs no cycle detection: a node name already invoked on the sequential
path is simply invoked again, and evaluation of `a >> a` returns the value
of the second invocation with both invocations on the trace. -/
theorem c4_no_cycle_detection (env : EvalEnv) (a : String) (σ : List String)
    (h : a ∈ env.registered) :
    flowEval env [.name a, .seq, .name a] σ = (env.beh a (σ.count a + 1), σ ++ [a, a]) := by
  have h1 : flowEval env [.name a, .seq, .name a] σ = execNode env (execNode env σ a).2 a := rfl
  rw [h1]
  simp [execNode, h, List.count_append]

/-- C4 witness: the amended theorem applied at node `A`, prior trace
`["X"]`. -/
theorem c4_witness :
    flowEval envA [.name "A", .seq, .name "A"] ["X"] = (true, ["X", "A", "A"]) := by
  simpa [envA] using c4_no_cycle_detection envA "A" ["X"] (by decide)

/-- Helper: when attempt `k + m` succeeds with `b` after `m` failed
attempts (and `m` is inside the budget), the retry loop stops there with
the failure entries followed by the OK entry. -/
theorem executeGo_ok_at (nm : String) (att : Nat → Attempt) :
    ∀ budget k m b, m < budget → att (k + m) = .ok b →
      (∀ j, j < m → attFails (att (k + j)) = true) →
      executeGo nm att k budget =
        .ok (b, (List.range m).map (fun j => (nm, failStatus (att (k + j)))) ++ [(nm, .okS)]) := by
  intro budget
  induction budget with
  | zero => intro k m b hm; omega
  | succ n ih =>
    intro k m b hm hok hfail
    match m with
    | 0 =>
      simp only [Nat.add_zero] at hok
      simp [executeGo, hok]
    | m' + 1 =>
      have h0 : attFails (att k) = true := by simpa using hfail 0 (by omega)
      have hrec : executeGo nm att (k+1) n =
          .ok (b, (List.range m').map (fun j => (nm, failStatus (att (k + 1 + j)))) ++ [(nm, .okS)]) := by
        apply ih (k+1) m' b (by omega)
        · have : k + 1 + m' = k + (m' + 1) := by omega
          rw [this]; exact hok
        · intro j hj
          have : k + 1 + j = k + (j + 1) := by omega
          rw [this]; exact hfail (j+1) (by omega)
      have hshift : ∀ j, k + 1 + j = k + (j + 1) := fun j => by omega
      cases ha : att k with
      | ok b' => rw [ha] at h0; simp [attFails] at h0
      | interrupt => rw [ha] at h0; simp [attFails] at h0
      | timeout =>
        simp only [executeGo, ha, hrec, Except.map, List.range_succ_eq_map, List.map_cons,
          List.map_map]
        simp [ha, failStatus, Function.comp_def, hshift]
      | err kind =>
        simp only [executeGo, ha, hrec, Except.map, List.range_succ_eq_map, List.map_cons,
          List.map_map]
        simp [ha, failStatus, Function.comp_def, hshift]

/-- Helper: when every attempt in the budget fails, the retry loop returns
`false` with one failure entry per attempt. -/
theorem executeGo_exhaust (nm : String) (att : Nat → Attempt) :
    ∀ budget k, (∀ j, j < budget → attFails (att (k + j)) = true) →
      executeGo nm att k budget =
        .ok (false, (List.range budget).map (fun j => (nm, failStatus (att (k + j))))) := by
  intro budget
  induction budget with
  | zero => intro k _; simp [executeGo]
  | succ n ih =>
    intro k hfail
    have h0 : attFails (att k) = true := by simpa using hfail 0 (by omega)
    have hrec := ih (k+1) (fun j hj => by
      have : k + 1 + j = k + (j + 1) := by omega
      rw [this]; exact hfail (j+1) (by omega))
    have hshift : ∀ j, k + 1 + j = k + (j + 1) := fun j => by omega
    cases ha : att k with
    | ok b' => rw [ha] at h0; simp [attFails] at h0
    | interrupt => rw [ha] at h0; simp [attFails] at h0
    | timeout =>
      simp only [executeGo, ha, hrec, Except.map, List.range_succ_eq_map, List.map_cons,
        List.map_map]
      simp [ha, failStatus, Function.comp_def, hshift]
    | err kind =>
      simp only [executeGo, ha, hrec, Except.map, List.range_succ_eq_map, List.map_cons,
        List.map_map]
      simp [ha, failStatus, Function.comp_def, hshift]

/-- Helper: without an interrupt in the budget the retry loop returns a
boolean with at most one trace entry per attempt. -/
theorem executeGo_total (nm : String) (att : Nat → Attempt) :
    ∀ budget k, (∀ j, j < budget → att (k + j) ≠ .interrupt) →
      ∃ b tr, executeGo nm att k budget = .ok (b, tr) ∧ tr.length ≤ budget := by
  intro budget
  induction budget with
  | zero => intro k _; exact ⟨false, [], rfl, by simp⟩
  | succ n ih =>
    intro k hni
    cases ha : att k with
    | ok b => exact ⟨b, [(nm, .okS)], by simp [executeGo, ha], by simp⟩
    | interrupt =>
      exact absurd ha (by simpa using hni 0 (by omega))
    | timeout =>
      obtain ⟨b, tr, heq, hlen⟩ := ih (k+1) (fun j hj => by
        have : k + 1 + j = k + (j + 1) := by omega
        rw [this]; exact hni (j+1) (by omega))
      exact ⟨b, (nm, .timeoutS) :: tr, by simp [executeGo, ha, heq, Except.map], by simpa using hlen⟩
    | err kind =>
      obtain ⟨b, tr, heq, hlen⟩ := ih (k+1) (fun j hj => by
        have : k + 1 + j = k + (j + 1) := by omega
        rw [this]; exact hni (j+1) (by omega))
      exact ⟨b, (nm, .errS kind) :: tr, by simp [executeGo, ha, heq, Except.map], by simpa using hlen⟩

/-- Helper: the retry loop propagates an error only when some attempt in
the budget is an interrupt. -/
theorem executeGo_error (nm : String) (att : Nat → Attempt) :
    ∀ budget k ε, executeGo nm att k budget = .error ε →
      ∃ j, j < budget ∧ att (k + j) = .interrupt := by
  intro budget
  induction budget with
  | zero => intro k ε h; simp [executeGo] at h
  | succ n ih =>
    intro k ε h
    cases ha : att k with
    | ok b => rw [executeGo, ha] at h; simp at h
    | interrupt => exact ⟨0, by omega, by simpa using ha⟩
    | timeout =>
      rw [executeGo, ha] at h
      cases he : executeGo nm att (k+1) n with
      | ok p => rw [he] at h; simp [Except.map] at h
      | error ε' =>
        obtain ⟨j, hj, hint⟩ := ih (k+1) ε' he
        exact ⟨j + 1, by omega, by rw [show k + (j+1) = k + 1 + j by omega]; exact hint⟩
    | err kind =>
      rw [executeGo, ha] at h
      cases he : executeGo nm att (k+1) n with
      | ok p => rw [he] at h; simp [Except.map] at h
      | error ε' =>
        obtain ⟨j, hj, hint⟩ := ih (k+1) ε' he
        exact ⟨j + 1, by omega, by rw [show k + (j+1) = k + 1 + j by omega]; exact hint⟩

/-- C6: for a node with `retries = r` whose attempts never interrupt,
`Node.execute` makes at most `r + 1` attempts (one trace entry each); an
attempt returning normally ends execution at once with its OK entry and
the user's boolean; failing attempts log their entry and continue; and
when all `r + 1` attempts fail the result is `false` with one failure
entry per attempt. -/
theorem c6_execute_envelope (nm : String) (att : Nat → Attempt) (r : Nat)
    (hni : ∀ k, k ≤ r → att k ≠ .interrupt) :
    (∃ b tr, execute nm att r = .ok (b, tr) ∧ tr.length ≤ r + 1) ∧
    (∀ m b, m ≤ r → att m = .ok b → (∀ j, j < m → attFails (att j) = true) →
      execute nm att r =
        .ok (b, (List.range m).map (fun j => (nm, failStatus (att j))) ++ [(nm, .okS)])) ∧
    ((∀ m, m ≤ r → attFails (att m) = true) →
      execute nm att r =
        .ok (false, (List.range (r + 1)).map (fun j => (nm, failStatus (att j))))) := by
  refine ⟨?_, ?_, ?_⟩
  · simpa using executeGo_total nm att (r+1) 0 (fun j hj => by simpa using hni j (by omega))
  · intro m b hm hok hfail
    have := executeGo_ok_at nm att (r+1) 0 m b (by omega) (by simpa using hok)
      (fun j hj => by simpa using hfail j hj)
    simpa using this
  · intro hall
    have := executeGo_exhaust nm att (r+1) 0 (fun j hj => by simpa using hall j (by omega))
    simpa using this

/-- C6 witness: node `n` with `retries = 1` whose first attempt times out
and whose second succeeds: execution returns `true` with a TIMEOUT entry
then an OK entry. -/
theorem c6_witness :
    execute "n" attW 1 = .ok (true, [("n", .timeoutS), ("n", .okS)]) := by
  have h := (c6_execute_envelope "n" attW 1 (by intro k hk; interval_cases k <;> decide)).2.1
    1 true (by omega) (by decide) (by intro j hj; interval_cases j; decide)
  simpa [attW, failStatus] using h

/-- C9: `Node.execute` never propagates an `Exception`: whenever no
attempt within the budget is a `BaseException`-level interrupt, execution
returns a boolean (every timeout and every user exception is caught and
logged as a failed attempt); conversely, the only way execution propagates
is that some attempt within the budget interrupted.  No configuration
re-raises user errors. -/
theorem c9_exceptions_absorbed (nm : String) (att : Nat → Attempt) (r : Nat) :
    ((∀ k, k ≤ r → att k ≠ .interrupt) → ∃ b tr, execute nm att r = .ok (b, tr)) ∧
    (∀ ε, execute nm att r = .error ε → ∃ k, k ≤ r ∧ att k = .interrupt) := by
  constructor
  · intro hni
    obtain ⟨b, tr, heq, _⟩ := executeGo_total nm att (r+1) 0 (fun j hj => by
      simpa using hni j (by omega))
    exact ⟨b, tr, heq⟩
  · intro ε h
    obtain ⟨j, hj, hint⟩ := executeGo_error nm att (r+1) 0 ε h
    exact ⟨j, by omega, by simpa using hint⟩

/-- C9 witness: a node whose function raises `ValueError` on every attempt
still returns a boolean. -/
theorem c9_witness : ∃ b tr, execute "n" attE 0 = .ok (b, tr) :=
  (c9_exceptions_absorbed "n" attE 0).1 (by intro k hk; simp [attE])

/-- C7 counterexample: constructing a `Node` with a negative timeout,
negative retries and a non-asynchronous `fn` raises nothing —
`Node.__init__` performs no validation — and the node *is* registered,
contradicting the claim that an `InvalidConfig` error is surfaced and no
node is registered. -/
theorem c7_counterexample : registerNode emptyReg "bad" badCfg "bad" = some badCfg := by
  simp [registerNode]

/-- C7 (amended): `Node.__init__` (and hence the `node` decorator)
performs no validation of `fn`, `timeout` or `retries`: every
configuration whatsoever is accepted and the node is registered under its
name (last registration wins), leaving all other names untouched. -/
theorem c7_no_validation (reg : String → Option NodeCfg) (nm : String) (cfg : NodeCfg) :
    registerNode reg nm cfg nm = some cfg ∧
    (∀ k, k ≠ nm → registerNode reg nm cfg k = reg k) :=
  ⟨by simp [registerNode], fun k hk => by simp [registerNode, hk]⟩

/-- C7 witness: the amended theorem at the invalid configuration. -/
theorem c7_witness :
    registerNode emptyReg "n" badCfg "n" = some badCfg ∧
    registerNode emptyReg "n" badCfg "m" = none := by
  refine ⟨(c7_no_validation emptyReg "n" badCfg).1, ?_⟩
  have h := (c7_no_validation emptyReg "n" badCfg).2 "m" (by decide)
  simpa [emptyReg] using h

/-- Helper: the rejected validator state absorbs the rest of the pass. -/
theorem vstep_absorb (reg : List String) : ∀ ts, List.foldl (vstep reg) none ts = none := by
  intro ts
  induction ts with
  | nil => rfl
  | cons t rest ih =>
    rw [List.foldl_cons, show vstep reg none t = none from rfl]
    exact ih

/-- Helper: an accepting forward pass of the validator is an accepting run
in the inductive sense. -/
theorem fold_vacc (reg : List String) :
    ∀ ts d b, List.foldl (vstep reg) (some (d, b)) ts = some (0, false) → VAcc reg d b ts := by
  intro ts
  induction ts with
  | nil =>
    intro d b h
    simp only [List.foldl_nil, Option.some.injEq, Prod.mk.injEq] at h
    obtain ⟨h1, h2⟩ := h
    subst h1; subst h2
    exact .vdone
  | cons t rest ih =>
    intro d b h
    rw [List.foldl_cons] at h
    cases b with
    | true =>
      cases t with
      | lpar => exact .vpar (ih _ _ h)
      | name s =>
        by_cases hs : s ∈ reg
        · have h' : List.foldl (vstep reg) (some (d, false)) rest = some (0, false) := by
            rw [show vstep reg (some (d, true)) (.name s) = some (d, false) by
              simp [vstep, hs]] at h
            exact h
          exact .vname hs (ih _ _ h')
        · rw [show vstep reg (some (d, true)) (.name s) = none by simp [vstep, hs],
            vstep_absorb] at h
          exact absurd h (by simp)
      | rpar =>
        rw [show vstep reg (some (d, true)) .rpar = none from rfl, vstep_absorb] at h
        exact absurd h (by simp)
      | seq =>
        rw [show vstep reg (some (d, true)) .seq = none from rfl, vstep_absorb] at h
        exact absurd h (by simp)
      | orr =>
        rw [show vstep reg (some (d, true)) .orr = none from rfl, vstep_absorb] at h
        exact absurd h (by simp)
      | qmark =>
        rw [show vstep reg (some (d, true)) .qmark = none from rfl, vstep_absorb] at h
        exact absurd h (by simp)
      | amp =>
        rw [show vstep reg (some (d, true)) .amp = none from rfl, vstep_absorb] at h
        exact absurd h (by simp)
      | loop n =>
        rw [show vstep reg (some (d, true)) (.loop n) = none from rfl, vstep_absorb] at h
        exact absurd h (by simp)
    | false =>
      cases t with
      | rpar =>
        cases d with
        | zero =>
          rw [show vstep reg (some (0, false)) .rpar = none from rfl, vstep_absorb] at h
          exact absurd h (by simp)
        | succ d' => exact .vclose (ih _ _ h)
      | seq => exact .vseq (ih _ _ h)
      | orr => exact .vorr (ih _ _ h)
      | qmark => exact .vqmark (ih _ _ h)
      | amp => exact .vamp (ih _ _ h)
      | loop n =>
        by_cases hn : 1 ≤ n
        · have h' : List.foldl (vstep reg) (some (d, true)) rest = some (0, false) := by
            rw [show vstep reg (some (d, false)) (.loop n) = some (d, true) by
              simp [vstep, hn]] at h
            exact h
          exact .vloop hn (ih _ _ h')
        · rw [show vstep reg (some (d, false)) (.loop n) = none by simp [vstep, hn],
            vstep_absorb] at h
          exact absurd h (by simp)
      | lpar =>
        rw [show vstep reg (some (d, false)) .lpar = none from rfl, vstep_absorb] at h
        exact absurd h (by simp)
      | name s =>
        rw [show vstep reg (some (d, false)) (.name s) = none from rfl, vstep_absorb] at h
        exact absurd h (by simp)

/-- Helper: every bareword of an accepting run is registered. -/
theorem vacc_names {reg : List String} {d b ts} (h : VAcc reg d b ts) :
    ∀ s, Tok.name s ∈ ts → s ∈ reg := by
  induction h with
  | vdone => intro s hs; simp at hs
  | vname hs' _ ih =>
    intro s hs
    rcases List.mem_cons.mp hs with h1 | h2
    · injection h1 with h3; subst h3; exact hs'
    · exact ih s h2
  | vpar _ ih =>
    intro s hs
    rcases List.mem_cons.mp hs with h1 | h2
    · exact absurd h1 (by simp)
    · exact ih s h2
  | vseq _ ih =>
    intro s hs
    rcases List.mem_cons.mp hs with h1 | h2
    · exact absurd h1 (by simp)
    · exact ih s h2
  | vorr _ ih =>
    intro s hs
    rcases List.mem_cons.mp hs with h1 | h2
    · exact absurd h1 (by simp)
    · exact ih s h2
  | vqmark _ ih =>
    intro s hs
    rcases List.mem_cons.mp hs with h1 | h2
    · exact absurd h1 (by simp)
    · exact ih s h2
  | vamp _ ih =>
    intro s hs
    rcases List.mem_cons.mp hs with h1 | h2
    · exact absurd h1 (by simp)
    · exact ih s h2
  | vloop _ _ ih =>
    intro s hs
    rcases List.mem_cons.mp hs with h1 | h2
    · exact absurd h1 (by simp)
    · exact ih s h2
  | vclose _ ih =>
    intro s hs
    rcases List.mem_cons.mp hs with h1 | h2
    · exact absurd h1 (by simp)
    · exact ih s h2

/-- Helper: an accepting run flattens into an atom, an extension, and a
closing tail for the pending parentheses. -/
theorem vacc_flat {reg : List String} {d b ts} (h : VAcc reg d b ts) :
    (b = true → ∃ a ext rest, ts = a ++ ext ++ rest ∧ FlatG true a ∧ FlatG false ext ∧
      CloseTail d rest) ∧
    (b = false → ∃ ext rest, ts = ext ++ rest ∧ FlatG false ext ∧ CloseTail d rest) := by
  induction h with
  | vdone => exact ⟨by simp, fun _ => ⟨[], [], by simp, .fnil, .cdone⟩⟩
  | @vname s d ts hs _ ih =>
    obtain ⟨ext, rest, heq, hext, hclose⟩ := ih.2 rfl
    refine ⟨fun _ => ⟨[.name s], ext, rest, ?_, .fname s, hext, hclose⟩, by simp⟩
    simp [heq]
  | @vpar d ts _ ih =>
    obtain ⟨a, ext, rest, heq, ha, hext, hclose⟩ := ih.1 rfl
    cases hclose with
    | @cstep d ext2 rest2 hext2 hclose2 =>
      refine ⟨fun _ => ⟨.lpar :: (a ++ ext) ++ [.rpar], ext2, rest2, ?_,
        .fparen ha hext, hext2, hclose2⟩, by simp⟩
      subst heq
      simp [List.append_assoc]
  | @vseq d ts _ ih =>
    obtain ⟨a, ext, rest, heq, ha, hext, hclose⟩ := ih.1 rfl
    refine ⟨by simp, fun _ => ⟨.seq :: a ++ ext, rest, ?_, .fcons rfl trivial ha hext, hclose⟩⟩
    simp [heq, List.append_assoc]
  | @vorr d ts _ ih =>
    obtain ⟨a, ext, rest, heq, ha, hext, hclose⟩ := ih.1 rfl
    refine ⟨by simp, fun _ => ⟨.orr :: a ++ ext, rest, ?_, .fcons rfl trivial ha hext, hclose⟩⟩
    simp [heq, List.append_assoc]
  | @vqmark d ts _ ih =>
    obtain ⟨a, ext, rest, heq, ha, hext, hclose⟩ := ih.1 rfl
    refine ⟨by simp, fun _ => ⟨.qmark :: a ++ ext, rest, ?_, .fcons rfl trivial ha hext, hclose⟩⟩
    simp [heq, List.append_assoc]
  | @vamp d ts _ ih =>
    obtain ⟨a, ext, rest, heq, ha, hext, hclose⟩ := ih.1 rfl
    refine ⟨by simp, fun _ => ⟨.amp :: a ++ ext, rest, ?_, .fcons rfl trivial ha hext, hclose⟩⟩
    simp [heq, List.append_assoc]
  | @vloop n d ts hn _ ih =>
    obtain ⟨a, ext, rest, heq, ha, hext, hclose⟩ := ih.1 rfl
    refine ⟨by simp, fun _ => ⟨.loop n :: a ++ ext, rest, ?_, .fcons rfl hn ha hext, hclose⟩⟩
    simp [heq, List.append_assoc]
  | @vclose d ts _ ih =>
    obtain ⟨ext, rest, heq, hext, hclose⟩ := ih.2 rfl
    refine ⟨by simp, fun _ => ⟨[], .rpar :: ext ++ rest, ?_, .fnil, .cstep hext hclose⟩⟩
    simp [heq]

/-- Helper: `flatOf` distributes over concatenation of group lists. -/
theorem flatOf_append : ∀ xs ys : List (Tok × List Tok), flatOf (xs ++ ys) = flatOf xs ++ flatOf ys := by
  intro xs ys
  induction xs with
  | nil => simp [flatOf]
  | cons g xs ih => simp [flatOf, List.append_assoc] at ih ⊢; rw [ih]

/-- Helper: an extension is a concatenation of operator-atom groups. -/
theorem flat_ext_groups : ∀ {b ext}, FlatG b ext → b = false →
    ∃ gs, ext = flatOf gs ∧ ∀ g ∈ gs, isOpTok g.1 = true ∧ loopPos g.1 ∧ FlatG true g.2 := by
  intro b ext h
  induction h with
  | fname s => intro hb; simp at hb
  | fparen _ _ _ _ => intro hb; simp at hb
  | fnil => exact fun _ => ⟨[], rfl, by simp⟩
  | @fcons o a ext ho hlp ha _ _ ihext =>
    intro _
    obtain ⟨gs, heq, hgs⟩ := ihext rfl
    refine ⟨(o, a) :: gs, by simp [flatOf, List.foldr_cons] at heq ⊢; rw [← heq], ?_⟩
    intro g hg
    rcases List.mem_cons.mp hg with h1 | h2
    · subst h1; exact ⟨ho, hlp, ha⟩
    · exact hgs g h2

/-- Helper: atoms are nonempty. -/
theorem flat_atom_ne {a : List Tok} (h : FlatG true a) : a ≠ [] := by
  cases h <;> simp

/-- Helper: operator tokens have a grammar level between 1 and 5. -/
theorem rankO_le : ∀ {o : Tok}, isOpTok o = true → ∃ p, rankO o = some p ∧ 1 ≤ p ∧ p ≤ 5 := by
  intro o ho
  cases o with
  | seq => exact ⟨1, rfl, by omega, by omega⟩
  | orr => exact ⟨2, rfl, by omega, by omega⟩
  | qmark => exact ⟨3, rfl, by omega, by omega⟩
  | amp => exact ⟨4, rfl, by omega, by omega⟩
  | loop n => exact ⟨5, rfl, by omega, by omega⟩
  | lpar => simp [isOpTok] at ho
  | rpar => simp [isOpTok] at ho
  | name s => simp [isOpTok] at ho

/-- Helper: a list with an element satisfying `P` splits at the last such
element. -/
theorem last_with {α : Type} (P : α → Prop) :
    ∀ l : List α, (∃ x ∈ l, P x) → ∃ l1 x l2, l = l1 ++ x :: l2 ∧ P x ∧ ∀ y ∈ l2, ¬ P y := by
  intro l
  induction l with
  | nil => intro h; simp at h
  | cons a l ih =>
    intro h
    by_cases hl : ∃ x ∈ l, P x
    · obtain ⟨l1, x, l2, heq, hx, hl2⟩ := ih hl
      exact ⟨a :: l1, x, l2, by simp [heq], hx, hl2⟩
    · have ha : P a := by
        rcases h with ⟨x, hx, hPx⟩
        rcases List.mem_cons.mp hx with h1 | h2
        · subst h1; exact hPx
        · exact absurd ⟨x, h2, hPx⟩ hl
      refine ⟨[], a, l, by simp, ha, ?_⟩
      intro y hy hPy
      exact hl ⟨y, hy, hPy⟩

/-- Helper: every flattened expression — an atom followed by operator-atom
groups whose levels are at least `k` — derives from the level-`k`
nonterminal of the EBNF.  The outer induction is on the length budget `n`,
the inner on the distance `m` from the atom level. -/
theorem flat_derives :
    ∀ n : Nat, ∀ (a : List Tok) (gs : List (Tok × List Tok)),
      (a ++ flatOf gs).length ≤ n → FlatG true a →
      (∀ g ∈ gs, isOpTok g.1 = true ∧ loopPos g.1 ∧ FlatG true g.2) →
      ∀ m k : Nat, k + m = 6 → 1 ≤ k →
        (∀ g ∈ gs, ∃ p, rankO g.1 = some p ∧ k ≤ p) →
        ∃ t, DerivesO k (a ++ flatOf gs) t := by
  intro n
  induction n with
  | zero =>
    intro a gs hlen ha _ _ _ _ _ _
    exfalso
    have h1 : a ≠ [] := flat_atom_ne ha
    have h2 : 1 ≤ a.length := List.length_pos.mpr h1
    have h3 : a.length ≤ (a ++ flatOf gs).length := by simp [List.length_append]
    omega
  | succ n ihn =>
    intro a gs hlen ha hgs m
    induction m with
    | zero =>
      intro k hk6 _ hranks
      have hk : k = 6 := by omega
      subst hk
      cases gs with
      | cons g gs2 =>
        exfalso
        obtain ⟨p, hp, hkp⟩ := hranks g (by simp)
        obtain ⟨p2, hp2, _, hp5⟩ := rankO_le (hgs g (by simp)).1
        rw [hp] at hp2
        simp only [Option.some.injEq] at hp2
        omega
      | nil =>
        rw [show flatOf [] = [] from rfl, List.append_nil] at hlen ⊢
        cases ha with
        | fname s => exact ⟨.leaf s, .oname s⟩
        | @fparen a2 ext2 ha2 hext2 =>
          obtain ⟨gs2, hgseq, hgs2⟩ := flat_ext_groups hext2 rfl
          subst hgseq
          have hlen2 : (a2 ++ flatOf gs2).length ≤ n := by
            simp [List.length_append] at hlen ⊢
            omega
          obtain ⟨t, ht⟩ := ihn a2 gs2 hlen2 ha2 hgs2 5 1 rfl (by omega)
            (fun g hg => by
              obtain ⟨p, hp, h1, _⟩ := rankO_le (hgs2 g hg).1
              exact ⟨p, hp, h1⟩)
          exact ⟨t, .oparen ht⟩
    | succ m ihm =>
      intro k hk6 hk1 hranks
      by_cases hex : ∃ g ∈ gs, rankO g.1 = some k
      · obtain ⟨gs1, gj, gs2, hsplit, hgj, hgs2⟩ := last_with (fun g => rankO g.1 = some k) gs hex
        subst hsplit
        have hgj_mem : gj ∈ gs1 ++ gj :: gs2 := by simp
        have hfl : a ++ flatOf (gs1 ++ gj :: gs2) =
            (a ++ flatOf gs1) ++ gj.1 :: (gj.2 ++ flatOf gs2) := by
          rw [flatOf_append]
          simp [flatOf, List.append_assoc]
        have hne2 : gj.2 ≠ [] := flat_atom_ne (hgs gj hgj_mem).2.2
        have hl2 : 1 ≤ gj.2.length := List.length_pos.mpr hne2
        have hlne : a ≠ [] := flat_atom_ne ha
        have hla : 1 ≤ a.length := List.length_pos.mpr hlne
        rw [hfl] at hlen ⊢
        simp only [List.length_append, List.length_cons] at hlen
        have hlen1 : (a ++ flatOf gs1).length ≤ n := by
          simp only [List.length_append]
          omega
        have hlenR : (gj.2 ++ flatOf gs2).length ≤ n := by
          simp only [List.length_append]
          omega
        obtain ⟨t1, h1⟩ := ihn a gs1 hlen1 ha (fun g hg => hgs g (by simp [hg])) (m+1) k hk6 hk1
          (fun g hg => hranks g (by simp [hg]))
        obtain ⟨t2, h2⟩ := ihn gj.2 gs2 hlenR (hgs gj hgj_mem).2.2
          (fun g hg => hgs g (by simp [hg])) m (k+1) (by omega) (by omega)
          (fun g hg => by
            obtain ⟨p, hp, hkp⟩ := hranks g (by simp [hg])
            have hnk : rankO g.1 ≠ some k := hgs2 g hg
            have hpk : p ≠ k := fun hh => hnk (by rw [hp, hh])
            exact ⟨p, hp, by omega⟩)
        exact ⟨mkNode gj.1 t1 t2, .oapp hgj (hgs gj hgj_mem).2.1 h1 h2⟩
      · obtain ⟨t, ht⟩ := ihm (k+1) (by omega) (by omega) (fun g hg => by
          obtain ⟨p, hp, hkp⟩ := hranks g hg
          have hpk : p ≠ k := fun hh => hex ⟨g, hg, by rw [hp, hh]⟩
          exact ⟨p, hp, by omega⟩)
        exact ⟨t, .opromo (by omega) ht⟩

/-- Helper: soundness of the modelled validator — an accepted token vector
derives from the EBNF's start symbol and references only registered
names. -/
theorem validate_sound {reg : List String} {ts : List Tok} (h : validateOk reg ts) :
    (∃ t, DerivesO 1 ts t) ∧ ∀ s, Tok.name s ∈ ts → s ∈ reg := by
  have hv : VAcc reg 0 true ts := fold_vacc reg ts 0 true h
  refine ⟨?_, vacc_names hv⟩
  obtain ⟨a, ext, rest, heq, ha, hext, hclose⟩ := (vacc_flat hv).1 rfl
  cases hclose
  rw [List.append_nil] at heq
  subst heq
  obtain ⟨gs, hgseq, hgs⟩ := flat_ext_groups hext rfl
  subst hgseq
  exact flat_derives (a ++ flatOf gs).length a gs (le_refl _) ha hgs 5 1 rfl (by omega)
    (fun g hg => by
      obtain ⟨p, hp, h1, _⟩ := rankO_le (hgs g hg).1
      exact ⟨p, hp, h1⟩)

/-- C5 counterexample: the claim says `Flow.run` raises `SyntaxError` or
`UnknownNode` before any node executes on every input with an illegal
character (token concatenation differing from the stripped input).  The
input `"A@"` has an illegal character — its tokens concatenate to `"A"`,
not `"A@"` — yet plain `Flow.run` (which never validates) silently drops
the `@`, executes node `A`, emits its trace entry and returns its value. -/
theorem c5_counterexample :
    flowRunStr envA "A@" = (true, ["A"]) ∧ joinToks (lexStr "A@") ≠ stripWs "A@" := by
  constructor
  · decide
  · decide

/-- C5 (amended): `TracingFlow.run`, whose validator `Flow._validate` is
modelled from spec section 4.2, raises before any node executes — the
error branch performs no evaluation — on every token vector that is not
derivable from the spec's EBNF or that references a name absent from the
registry.  (Plain `Flow.run` performs no validation at all, and illegal
characters are silently dropped by the lexer rather than detected, since
no token-concatenation check exists in the source.) -/
theorem c5_validation_totality (env : EvalEnv) (ts : List Tok) (σ : List String)
    (h : (¬ ∃ t, DerivesO 1 ts t) ∨ (∃ s, Tok.name s ∈ ts ∧ s ∉ env.registered)) :
    tracingRun env ts σ = .error () := by
  unfold tracingRun
  split_ifs with hv
  · exfalso
    obtain ⟨hd, hn⟩ := validate_sound hv
    rcases h with h | ⟨s, hm, hnr⟩
    · exact h hd
    · exact hnr (hn s hm)
  · rfl

/-- C5 witness: the amended theorem applied to the single unregistered
name `X` against the empty registry. -/
theorem c5_witness : tracingRun envNone [.name "X"] [] = .error () :=
  c5_validation_totality envNone [.name "X"] []
    (.inr ⟨"X", by decide, by simp [envNone]⟩)

/-- C10: the operator overloads build DSL strings, not executions: on
nodes, `>>`, `&`, `|` and `^` produce `"a >> b"`, `"a & b"`, `"a | b"`
and `"a ? b"` (`^` spells the DSL's `?`); chaining onto an `Expr`
parenthesises the accumulated left operand, so `a >> b >> c` builds
`"(a >> b) >> c"`, and `Expr.loop` builds `"(a >> b) <5> c"`. -/
theorem c10_operator_strings :
    nodeRshiftStr "a" "b" = "a >> b" ∧
    nodeAndStr "a" "b" = "a & b" ∧
    nodeOrStr "a" "b" = "a | b" ∧
    nodeXorStr "a" "b" = "a ? b" ∧
    exprRshiftStr (nodeRshiftStr "a" "b") "c" = "(a >> b) >> c" ∧
    exprAndStr (nodeRshiftStr "a" "b") "c" = "(a >> b) & c" ∧
    exprOrStr (nodeRshiftStr "a" "b") "c" = "(a >> b) | c" ∧
    exprXorStr (nodeRshiftStr "a" "b") "c" = "(a >> b) ? c" ∧
    exprLoopStr (nodeRshiftStr "a" "b") 5 "c" = "(a >> b) <5> c" := by
  decide


/-- Helper: the operator scan is the minimum-precedence fold over the
depth-zero operator list. -/
theorem findOpAux_eq_fold :
    ∀ (ts : List Tok) (i minP : Nat) (best : Option Nat) (d : Int),
      findOpAux ts i minP best d = ((topOpsAux ts i d).foldl updMin (minP, best)).2 := by
  intro ts
  induction ts with
  | nil => intro i minP best d; rfl
  | cons t rest ih =>
    intro i minP best d
    cases t with
    | lpar => simpa [findOpAux, topOpsAux] using ih (i+1) minP best (d+1)
    | rpar => simpa [findOpAux, topOpsAux] using ih (i+1) minP best (d-1)
    | name s => simpa [findOpAux, topOpsAux, precC] using ih (i+1) minP best d
    | seq =>
      by_cases hd : d = 0
      · by_cases hp : 1 ≤ minP
        · simpa [findOpAux, topOpsAux, precC, hd, hp, updMin] using ih (i+1) 1 (some i) d
        · simpa [findOpAux, topOpsAux, precC, hd, hp, updMin] using ih (i+1) minP best d
      · simpa [findOpAux, topOpsAux, precC, hd] using ih (i+1) minP best d
    | orr =>
      by_cases hd : d = 0
      · by_cases hp : 2 ≤ minP
        · simpa [findOpAux, topOpsAux, precC, hd, hp, updMin] using ih (i+1) 2 (some i) d
        · simpa [findOpAux, topOpsAux, precC, hd, hp, updMin] using ih (i+1) minP best d
      · simpa [findOpAux, topOpsAux, precC, hd] using ih (i+1) minP best d
    | qmark =>
      by_cases hd : d = 0
      · by_cases hp : 2 ≤ minP
        · simpa [findOpAux, topOpsAux, precC, hd, hp, updMin] using ih (i+1) 2 (some i) d
        · simpa [findOpAux, topOpsAux, precC, hd, hp, updMin] using ih (i+1) minP best d
      · simpa [findOpAux, topOpsAux, precC, hd] using ih (i+1) minP best d
    | amp =>
      by_cases hd : d = 0
      · by_cases hp : 3 ≤ minP
        · simpa [findOpAux, topOpsAux, precC, hd, hp, updMin] using ih (i+1) 3 (some i) d
        · simpa [findOpAux, topOpsAux, precC, hd, hp, updMin] using ih (i+1) minP best d
      · simpa [findOpAux, topOpsAux, precC, hd] using ih (i+1) minP best d
    | loop n =>
      by_cases hd : d = 0
      · by_cases hp : 4 ≤ minP
        · simpa [findOpAux, topOpsAux, precC, hd, hp, updMin] using ih (i+1) 4 (some i) d
        · simpa [findOpAux, topOpsAux, precC, hd, hp, updMin] using ih (i+1) minP best d
      · simpa [findOpAux, topOpsAux, precC, hd] using ih (i+1) minP best d

/-- Helper: the depth-zero operator list distributes over concatenation,
shifting the index by the length and the depth by the net depth change. -/
theorem topOpsAux_append :
    ∀ (xs ys : List Tok) (i : Nat) (d : Int),
      topOpsAux (xs ++ ys) i d = topOpsAux xs i d ++ topOpsAux ys (i + xs.length) (d + netD xs) := by
  intro xs
  induction xs with
  | nil => intro ys i d; simp [topOpsAux, netD]
  | cons t xs ih =>
    intro ys i d
    have e1 : (i+1) + xs.length = i + (xs.length + 1) := by omega
    cases t with
    | lpar =>
      have e2 : (d+1) + netD xs = d + netD (Tok.lpar :: xs) := by simp [netD, tokD]; ring
      simp only [List.cons_append, topOpsAux, List.length_cons, List.append_eq]
      rw [ih, e1, e2]
    | rpar =>
      have e2 : (d-1) + netD xs = d + netD (Tok.rpar :: xs) := by simp [netD, tokD]; ring
      simp only [List.cons_append, topOpsAux, List.length_cons, List.append_eq]
      rw [ih, e1, e2]
    | name s =>
      have e2 : d + netD xs = d + netD (Tok.name s :: xs) := by simp [netD, tokD]
      simp only [List.cons_append, topOpsAux, precC, List.length_cons, List.append_eq]
      rw [ih, e1, e2]
    | seq =>
      have e2 : d + netD xs = d + netD (Tok.seq :: xs) := by simp [netD, tokD]
      simp only [List.cons_append, topOpsAux, precC, List.length_cons, List.append_eq]
      by_cases hd : d = 0 <;> simp only [hd, if_true, if_false, reduceIte] <;>
        rw [ih, e1] <;> simp [netD, tokD, hd]
    | orr =>
      have e2 : d + netD xs = d + netD (Tok.orr :: xs) := by simp [netD, tokD]
      simp only [List.cons_append, topOpsAux, precC, List.length_cons, List.append_eq]
      by_cases hd : d = 0 <;> simp only [hd, if_true, if_false, reduceIte] <;>
        rw [ih, e1] <;> simp [netD, tokD, hd]
    | qmark =>
      have e2 : d + netD xs = d + netD (Tok.qmark :: xs) := by simp [netD, tokD]
      simp only [List.cons_append, topOpsAux, precC, List.length_cons, List.append_eq]
      by_cases hd : d = 0 <;> simp only [hd, if_true, if_false, reduceIte] <;>
        rw [ih, e1] <;> simp [netD, tokD, hd]
    | amp =>
      have e2 : d + netD xs = d + netD (Tok.amp :: xs) := by simp [netD, tokD]
      simp only [List.cons_append, topOpsAux, precC, List.length_cons, List.append_eq]
      by_cases hd : d = 0 <;> simp only [hd, if_true, if_false, reduceIte] <;>
        rw [ih, e1] <;> simp [netD, tokD, hd]
    | loop n =>
      have e2 : d + netD xs = d + netD (Tok.loop n :: xs) := by simp [netD, tokD]
      simp only [List.cons_append, topOpsAux, precC, List.length_cons, List.append_eq]
      by_cases hd : d = 0 <;> simp only [hd, if_true, if_false, reduceIte] <;>
        rw [ih, e1] <;> simp [netD, tokD, hd]


/-- Helper: the running depth composes over concatenation. -/
theorem runDepth_append : ∀ (xs ys : List Tok) (d : Nat),
    runDepth (xs ++ ys) d = (runDepth xs d).bind (fun e => runDepth ys e) := by
  intro xs
  induction xs with
  | nil => intro ys d; rfl
  | cons t xs ih =>
    intro ys d
    cases t with
    | lpar => simpa [runDepth] using ih ys (d+1)
    | rpar =>
      cases d with
      | zero => simp [runDepth]
      | succ d2 => simpa [runDepth] using ih ys d2
    | seq => simpa [runDepth] using ih ys d
    | orr => simpa [runDepth] using ih ys d
    | qmark => simpa [runDepth] using ih ys d
    | amp => simpa [runDepth] using ih ys d
    | loop n => simpa [runDepth] using ih ys d
    | name s => simpa [runDepth] using ih ys d

/-- Helper: a surviving run survives from one level deeper, one deeper. -/
theorem runDepth_shift : ∀ (ts : List Tok) (d e : Nat),
    runDepth ts d = some e → runDepth ts (d+1) = some (e+1) := by
  intro ts
  induction ts with
  | nil =>
    intro d e h
    simp [runDepth] at h ⊢
    omega
  | cons t ts ih =>
    intro d e h
    cases t with
    | lpar => exact ih (d+1) e h
    | rpar =>
      cases d with
      | zero => simp [runDepth] at h
      | succ d2 => exact ih d2 e h
    | seq => exact ih d e h
    | orr => exact ih d e h
    | qmark => exact ih d e h
    | amp => exact ih d e h
    | loop n => exact ih d e h
    | name s => exact ih d e h

/-- Helper: the net depth change of a surviving run is final minus initial. -/
theorem runDepth_netD : ∀ (ts : List Tok) (d e : Nat),
    runDepth ts d = some e → netD ts = (e : Int) - d := by
  intro ts
  induction ts with
  | nil =>
    intro d e h
    simp [runDepth] at h
    simp [netD, h]
  | cons t ts ih =>
    intro d e h
    cases t with
    | lpar =>
      have := ih (d+1) e h
      simp [netD, tokD] at this ⊢
      omega
    | rpar =>
      cases d with
      | zero => simp [runDepth] at h
      | succ d2 =>
        have := ih d2 e h
        simp [netD, tokD] at this ⊢
        omega
    | seq =>
      have := ih d e h
      simp [netD, tokD] at this ⊢
      omega
    | orr =>
      have := ih d e h
      simp [netD, tokD] at this ⊢
      omega
    | qmark =>
      have := ih d e h
      simp [netD, tokD] at this ⊢
      omega
    | amp =>
      have := ih d e h
      simp [netD, tokD] at this ⊢
      omega
    | loop n =>
      have := ih d e h
      simp [netD, tokD] at this ⊢
      omega
    | name s =>
      have := ih d e h
      simp [netD, tokD] at this ⊢
      omega

/-- Helper: a slice whose run survives from depth `dn` has no depth-zero
operators when scanned from depth `dn + 1`. -/
theorem topOps_vanish : ∀ (ts : List Tok) (i : Nat) (dn : Nat), runDepth ts dn ≠ none →
    topOpsAux ts i ((dn : Int) + 1) = [] := by
  intro ts
  induction ts with
  | nil => intro i dn _; rfl
  | cons t ts ih =>
    intro i dn h
    cases t with
    | lpar =>
      have h2 := ih (i+1) (dn+1) (by simpa [runDepth] using h)
      show topOpsAux ts (i+1) ((dn : Int) + 1 + 1) = []
      have e : ((dn : Int) + 1 + 1) = ((dn + 1 : Nat) : Int) + 1 := by push_cast; ring
      rw [e]
      exact h2
    | rpar =>
      cases dn with
      | zero => simp [runDepth] at h
      | succ d2 =>
        have h2 := ih (i+1) d2 (by simpa [runDepth] using h)
        show topOpsAux ts (i+1) ((d2 + 1 : Nat) + 1 - 1 : Int) = []
        have e : ((d2 + 1 : Nat) + 1 - 1 : Int) = ((d2 : Nat) : Int) + 1 := by push_cast; ring
        rw [e]
        exact h2
    | seq =>
      have hd : ¬ ((dn : Int) + 1 = 0) := by omega
      simp only [topOpsAux, precC, hd, if_false, reduceIte]
      exact ih (i+1) dn (by simpa [runDepth] using h)
    | orr =>
      have hd : ¬ ((dn : Int) + 1 = 0) := by omega
      simp only [topOpsAux, precC, hd, if_false, reduceIte]
      exact ih (i+1) dn (by simpa [runDepth] using h)
    | qmark =>
      have hd : ¬ ((dn : Int) + 1 = 0) := by omega
      simp only [topOpsAux, precC, hd, if_false, reduceIte]
      exact ih (i+1) dn (by simpa [runDepth] using h)
    | amp =>
      have hd : ¬ ((dn : Int) + 1 = 0) := by omega
      simp only [topOpsAux, precC, hd, if_false, reduceIte]
      exact ih (i+1) dn (by simpa [runDepth] using h)
    | loop n =>
      have hd : ¬ ((dn : Int) + 1 = 0) := by omega
      simp only [topOpsAux, precC, hd, if_false, reduceIte]
      exact ih (i+1) dn (by simpa [runDepth] using h)
    | name s =>
      simp only [topOpsAux, precC]
      exact ih (i+1) dn (by simpa [runDepth] using h)

/-- Helper: an operator token leaves the running depth unchanged. -/
theorem runDepth_op_cons {o : Tok} {k : Nat} (h : precC o = some k) :
    ∀ (r : List Tok) (d : Nat), runDepth (o :: r) d = runDepth r d := by
  cases o with
  | seq => intro r d; rfl
  | orr => intro r d; rfl
  | qmark => intro r d; rfl
  | amp => intro r d; rfl
  | loop n => intro r d; rfl
  | lpar => simp [precC] at h
  | rpar => simp [precC] at h
  | name s => simp [precC] at h

/-- Helper: an operator token at depth zero heads the depth-zero operator
list with its precedence. -/
theorem topOps_op_cons {o : Tok} {k : Nat} (h : precC o = some k) :
    ∀ (r : List Tok) (i : Nat), topOpsAux (o :: r) i 0 = (i, k) :: topOpsAux r (i+1) 0 := by
  cases o with
  | seq =>
    intro r i
    simp [precC] at h
    simp [topOpsAux, precC, ← h]
  | orr =>
    intro r i
    simp [precC] at h
    simp [topOpsAux, precC, ← h]
  | qmark =>
    intro r i
    simp [precC] at h
    simp [topOpsAux, precC, ← h]
  | amp =>
    intro r i
    simp [precC] at h
    simp [topOpsAux, precC, ← h]
  | loop n =>
    intro r i
    simp [precC] at h
    simp [topOpsAux, precC, ← h]
  | lpar => simp [precC] at h
  | rpar => simp [precC] at h
  | name s => simp [precC] at h

/-- Helper: operator precedences lie between 1 and 4. -/
theorem precC_bounds {o : Tok} {k : Nat} (h : precC o = some k) : 1 ≤ k ∧ k ≤ 4 := by
  cases o <;> simp [precC] at h <;> omega

/-- Helper: a string derivable in the merged grammar is balanced and never
dips below its starting depth. -/
theorem derivesM_run : ∀ {k ts t}, DerivesM k ts t → runDepth ts 0 = some 0 := by
  intro k ts t h
  induction h with
  | mname s => rfl
  | @mparen inner t hinner ih =>
    have h1 : runDepth inner 1 = some 1 := runDepth_shift inner 0 0 ih
    show runDepth (Tok.lpar :: inner ++ [Tok.rpar]) 0 = some 0
    have : runDepth (inner ++ [Tok.rpar]) 1 = some 0 := by
      rw [runDepth_append, h1]
      rfl
    simpa [runDepth] using this
  | mpromo _ _ ih => exact ih
  | @mapp k o l r t1 t2 hprec _ _ _ ih1 ih2 =>
    rw [runDepth_append, ih1]
    show runDepth (o :: r) 0 = some 0
    rw [runDepth_op_cons hprec]
    exact ih2

/-- Helper: derivable strings are nonempty. -/
theorem derivesM_ne : ∀ {k ts t}, DerivesM k ts t → ts ≠ [] := by
  intro k ts t h
  induction h with
  | mname s => simp
  | mparen _ _ => simp
  | mpromo _ _ ih => exact ih
  | mapp _ _ _ _ _ _ => simp

/-- Helper: a parenthesised slice has no depth-zero operators. -/
theorem topOps_paren {inner : List Tok} (h : runDepth inner 0 = some 0) (i : Nat) :
    topOpsAux (.lpar :: inner ++ [.rpar]) i 0 = [] := by
  show topOpsAux (inner ++ [Tok.rpar]) (i+1) (0 + 1) = []
  rw [topOpsAux_append]
  have h1 : topOpsAux inner (i+1) (0 + 1 : Int) = [] := by
    have := topOps_vanish inner (i+1) 0 (by simp [h])
    simpa using this
  have h2 : netD inner = 0 := by
    have := runDepth_netD inner 0 0 h
    simpa using this
  rw [h1, h2]
  rfl

/-- Helper: every depth-zero operator of a string derivable at level `k`
in the merged grammar has precedence at least `k`. -/
theorem derivesM_rank : ∀ {k ts t}, DerivesM k ts t →
    ∀ (i : Nat), ∀ e ∈ topOpsAux ts i 0, k ≤ e.2 := by
  intro k ts t h
  induction h with
  | mname s => intro i e he; simp [topOpsAux, precC] at he
  | @mparen inner t hinner ih =>
    intro i e he
    rw [topOps_paren (derivesM_run hinner) i] at he
    simp at he
  | @mpromo k ts t hk _ ih =>
    intro i e he
    have := ih i e he
    omega
  | @mapp k o l r t1 t2 hprec _ hl hr ih1 ih2 =>
    intro i e he
    rw [topOpsAux_append] at he
    have h0 : netD l = 0 := by
      have := runDepth_netD l 0 0 (derivesM_run hl)
      simpa using this
    rw [h0] at he
    simp only [add_zero] at he
    rw [topOps_op_cons hprec] at he
    rcases List.mem_append.mp he with h1 | h2
    · exact ih1 i e h1
    · rcases List.mem_cons.mp h2 with h3 | h4
      · subst h3; simp
      · have := ih2 (i + l.length + 1) e h4
        omega

/-- Helper: folding the minimum over entries all at least `p` keeps the
minimum at least `p`. -/
theorem foldMin_ge : ∀ (L : List (Nat × Nat)) (m : Nat) (b : Option Nat) (p : Nat),
    p ≤ m → (∀ e ∈ L, p ≤ e.2) → p ≤ (L.foldl updMin (m, b)).1 := by
  intro L
  induction L with
  | nil => intro m b p h _; simpa using h
  | cons e L ih =>
    intro m b p hpm hall
    rw [List.foldl_cons]
    by_cases he : e.2 ≤ m
    · rw [show updMin (m, b) e = (e.2, some e.1) by simp [updMin, he]]
      exact ih e.2 (some e.1) p (hall e (by simp)) (fun x hx => hall x (by simp [hx]))
    · rw [show updMin (m, b) e = (m, b) by simp [updMin, he]]
      exact ih m b p hpm (fun x hx => hall x (by simp [hx]))

/-- Helper: entries strictly above the current minimum leave the fold
state untouched. -/
theorem foldMin_skip : ∀ (L : List (Nat × Nat)) (p : Nat) (b : Option Nat),
    (∀ e ∈ L, p < e.2) → L.foldl updMin (p, b) = (p, b) := by
  intro L
  induction L with
  | nil => intro p b _; rfl
  | cons e L ih =>
    intro p b hall
    rw [List.foldl_cons]
    have he : ¬ e.2 ≤ p := by
      have := hall e (by simp)
      omega
    rw [show updMin (p, b) e = (p, b) by simp [updMin, he]]
    exact ih p b (fun x hx => hall x (by simp [hx]))

/-- Helper: when the depth-zero operators split into a prefix at least
`p`, the junction `(j, p)`, and a suffix strictly above `p`, the scan
picks the junction. -/
theorem findOp_junction {ts : List Tok} {A B : List (Nat × Nat)} {j p : Nat}
    (htop : topOpsAux ts 0 0 = A ++ (j, p) :: B) (hp : p ≤ 999)
    (hA : ∀ e ∈ A, p ≤ e.2) (hB : ∀ e ∈ B, p < e.2) :
    findOp ts = some j := by
  rw [findOp, findOpAux_eq_fold, htop, List.foldl_append, List.foldl_cons]
  have h1 : p ≤ (A.foldl updMin (999, none)).1 := foldMin_ge A 999 none p hp hA
  rw [show updMin (A.foldl updMin (999, none)) (j, p) = (p, some j) by simp [updMin, h1]]
  rw [foldMin_skip B p (some j) hB]

/-- Helper: the split parse of any string derivable in the merged grammar
is exactly its grammar tree, for any fuel at least the slice length. -/
theorem splitParse_derivesM : ∀ {k ts t}, DerivesM k ts t → ∀ fuel, ts.length ≤ fuel →
    splitParse fuel ts = some t := by
  intro k ts t h
  induction h with
  | mname s =>
    intro fuel hf
    cases fuel with
    | zero => simp at hf
    | succ f => simp [splitParse]
  | @mparen inner t hinner ih =>
    intro fuel hf
    have hpos : 1 ≤ inner.length := List.length_pos.mpr (derivesM_ne hinner)
    have hL : (Tok.lpar :: inner ++ [Tok.rpar]).length = inner.length + 2 := by
      simp
    cases fuel with
    | zero => rw [hL] at hf; omega
    | succ f =>
      rw [splitParse]
      rw [if_neg (by rw [hL]; omega), if_neg (by rw [hL]; omega)]
      have hfo : findOp (Tok.lpar :: inner ++ [Tok.rpar]) = none := by
        rw [findOp, findOpAux_eq_fold, topOps_paren (derivesM_run hinner) 0]
        rfl
      rw [hfo]
      have hdrop : ((Tok.lpar :: inner ++ [Tok.rpar]).drop 1).dropLast = inner := by
        simp
      rw [hdrop]
      exact ih f (by rw [hL] at hf; omega)
  | mpromo _ _ ih => exact ih
  | @mapp k o l r t1 t2 hprec hlp hl hr ih1 ih2 =>
    intro fuel hf
    have hpl : 1 ≤ l.length := List.length_pos.mpr (derivesM_ne hl)
    have hpr : 1 ≤ r.length := List.length_pos.mpr (derivesM_ne hr)
    have hL : (l ++ o :: r).length = l.length + r.length + 1 := by
      simp [List.length_append]
      omega
    cases fuel with
    | zero => rw [hL] at hf; omega
    | succ f =>
      have htop : topOpsAux (l ++ o :: r) 0 0 =
          topOpsAux l 0 0 ++ (l.length, k) :: topOpsAux r (l.length + 1) 0 := by
        rw [topOpsAux_append]
        have h0 : netD l = 0 := by
          have := runDepth_netD l 0 0 (derivesM_run hl)
          simpa using this
        rw [h0]
        simp [topOps_op_cons hprec]
      have hfo : findOp (l ++ o :: r) = some l.length := by
        refine findOp_junction htop ?_ ?_ ?_
        · have := precC_bounds hprec
          omega
        · intro e he
          exact derivesM_rank hl 0 e he
        · intro e he
          have := derivesM_rank hr (l.length + 1) e he
          omega
      rw [splitParse]
      rw [if_neg (by rw [hL]; omega), if_neg (by rw [hL]; omega)]
      rw [hfo]
      have htake : (l ++ o :: r).take l.length = l := List.take_left l (o :: r)
      have hdrop2 : (l ++ o :: r).drop (l.length + 1) = r := by
        rw [show l ++ o :: r = (l ++ [o]) ++ r by simp]
        rw [show l.length + 1 = (l ++ [o]).length by simp]
        exact List.drop_left (l ++ [o]) r
      have hget : (l ++ o :: r).getD l.length Tok.lpar = o := by
        rw [List.getD_eq_getElem?_getD, List.getElem?_append_right (le_refl l.length)]
        simp
      simp only [htake, hdrop2, hget, ih1 f (by rw [hL] at hf; omega),
        ih2 f (by rw [hL] at hf; omega)]
      cases o with
      | seq => rfl
      | orr => rfl
      | qmark => rfl
      | amp => rfl
      | loop n => rfl
      | lpar => simp [precC] at hprec
      | rpar => simp [precC] at hprec
      | name s => simp [precC] at hprec

/-- C8 (amended): for every token sequence well-formed under the grammar
in which `|` and `?` share one left-associative tier (the spec's EBNF with
`orc` and `cond` merged, so the grammar levels coincide with the code's
precedences), the lowest-precedence split of `Flow._eval_infix` — lowest
precedence first, ties to the rightmost occurrence, parentheses
overriding — produces exactly the parse tree prescribed by that grammar
(which is therefore also unambiguous). -/
theorem c8_split_parse (ts : List Tok) (t : PTree) (h : DerivesM 1 ts t) :
    parseTokens ts = some t :=
  splitParse_derivesM h ts.length (le_refl _)

/-- C8 witness: the amended theorem applied to `a & b` with its explicit
merged-grammar derivation. -/
theorem c8_witness :
    parseTokens [.name "a", .amp, .name "b"] = some (.andT (.leaf "a") (.leaf "b")) := by
  have h3a : DerivesM 3 [Tok.name "a"] (.leaf "a") :=
    .mpromo (by omega) (.mpromo (by omega) (.mname "a"))
  have h4b : DerivesM 4 [Tok.name "b"] (.leaf "b") := .mpromo (by omega) (.mname "b")
  have happ : DerivesM 3 ([Tok.name "a"] ++ Tok.amp :: [Tok.name "b"])
      (mkNode Tok.amp (.leaf "a") (.leaf "b")) := .mapp rfl trivial h3a h4b
  have h1 : DerivesM 1 [Tok.name "a", Tok.amp, Tok.name "b"] (.andT (.leaf "a") (.leaf "b")) :=
    .mpromo (by omega) (.mpromo (by omega) happ)
  exact c8_split_parse _ _ h1

/-- Helper: a tree with an `|` at the root is derivable below the cond
tier of the original EBNF only through parentheses. -/
theorem derivO_orT : ∀ {k ts u}, DerivesO k ts u → ∀ t1 t2, u = .orT t1 t2 → 3 ≤ k →
    Tok.lpar ∈ ts := by
  intro k ts u h
  induction h with
  | oname s => intro t1 t2 he _; simp at he
  | oparen _ _ => intro _ _ _ _; simp
  | opromo hk _ ih => intro t1 t2 he h3; exact ih t1 t2 he (by omega)
  | @oapp k o l r s1 s2 hrank hlp _ _ ih1 ih2 =>
    intro t1 t2 he h3
    cases o with
    | seq => simp [mkNode] at he
    | orr => simp [rankO] at hrank; omega
    | qmark => simp [mkNode] at he
    | amp => simp [mkNode] at he
    | loop n => simp [mkNode] at he
    | lpar => simp [rankO] at hrank
    | rpar => simp [rankO] at hrank
    | name s => simp [rankO] at hrank

/-- Helper: in the original EBNF, a parenthesis-free string deriving a
tree with `?` at the root splits at a `?` into a cond-level left part and
a par-level right part. -/
theorem derivO_condT : ∀ {k ts u}, DerivesO k ts u → ∀ t1 t2, u = .condT t1 t2 →
    Tok.lpar ∉ ts → ∃ l r, ts = l ++ .qmark :: r ∧ DerivesO 3 l t1 ∧ DerivesO 4 r t2 := by
  intro k ts u h
  induction h with
  | oname s => intro t1 t2 he _; simp at he
  | oparen _ _ => intro t1 t2 _ hnp; exact absurd (by simp) hnp
  | opromo _ _ ih => intro t1 t2 he hnp; exact ih t1 t2 he hnp
  | @oapp k o l r s1 s2 hrank hlp hd1 hd2 ih1 ih2 =>
    intro t1 t2 he hnp
    cases o with
    | qmark =>
      simp only [rankO, Option.some.injEq] at hrank
      subst hrank
      simp only [mkNode, PTree.condT.injEq] at he
      obtain ⟨he1, he2⟩ := he
      subst he1; subst he2
      exact ⟨l, r, rfl, hd1, hd2⟩
    | seq => simp [mkNode] at he
    | orr => simp [mkNode] at he
    | amp => simp [mkNode] at he
    | loop n => simp [mkNode] at he
    | lpar => simp [rankO] at hrank
    | rpar => simp [rankO] at hrank
    | name s => simp [rankO] at hrank

/-- C8 counterexample: on `a | b ? c` the spec's EBNF — where `?` (cond)
binds tighter than `|` (orc) — prescribes the tree `a | (b ? c)` and
derives no other, while the implementation's split, giving `|` and `?` the
same precedence 2 with ties to the rightmost, produces `(a | b) ? c`. -/
theorem c8_counterexample :
    DerivesO 1 ex8 ex8treeO ∧ parseTokens ex8 = some ex8treeS ∧ ex8treeS ≠ ex8treeO ∧
      ¬ DerivesO 1 ex8 ex8treeS := by
  refine ⟨?_, by decide, by decide, ?_⟩
  · have ha2 : DerivesO 2 [Tok.name "a"] (.leaf "a") :=
      .opromo (by omega) (.opromo (by omega) (.opromo (by omega) (.opromo (by omega)
        (.oname "a"))))
    have hb3 : DerivesO 3 [Tok.name "b"] (.leaf "b") :=
      .opromo (by omega) (.opromo (by omega) (.opromo (by omega) (.oname "b")))
    have hc4 : DerivesO 4 [Tok.name "c"] (.leaf "c") :=
      .opromo (by omega) (.opromo (by omega) (.oname "c"))
    have hbc : DerivesO 3 ([Tok.name "b"] ++ Tok.qmark :: [Tok.name "c"])
        (mkNode Tok.qmark (.leaf "b") (.leaf "c")) := .oapp rfl trivial hb3 hc4
    have hor : DerivesO 2 ([Tok.name "a"] ++ Tok.orr :: [Tok.name "b", Tok.qmark, Tok.name "c"])
        (mkNode Tok.orr (.leaf "a") (.condT (.leaf "b") (.leaf "c"))) :=
      .oapp rfl trivial ha2 hbc
    exact .opromo (by omega) hor
  · intro h
    have hnp : Tok.lpar ∉ ex8 := by decide
    obtain ⟨l, r, heq, hl, hr⟩ := derivO_condT h _ _ rfl hnp
    have hlr : l = [Tok.name "a", Tok.orr, Tok.name "b"] := by
      rcases l with _ | ⟨x1, l⟩
      · simp [ex8] at heq
      rcases l with _ | ⟨x2, l⟩
      · simp [ex8] at heq
      rcases l with _ | ⟨x3, l⟩
      · simp [ex8] at heq
      rcases l with _ | ⟨x4, l⟩
      · simp only [ex8, List.cons_append, List.nil_append, List.cons.injEq] at heq
        obtain ⟨h1, h2, h3, _⟩ := heq
        rw [h1, h2, h3]
      rcases l with _ | ⟨x5, l⟩
      · simp [ex8] at heq
      · have hlen5 := congrArg List.length heq
        simp only [ex8, List.length_append, List.length_cons, List.length_nil] at hlen5
        omega
    subst hlr
    exact absurd (derivO_orT hl _ _ rfl (by omega)) (by decide)

end TinyAgent
